import Mathlib

/-!
Verification of the microTVM CRT slice: the fixed-capacity function registry
(src/runtime/crt/common/packed_func.c) and the RPC session layer
(src/runtime/crt/rpc_server/session.h).

The registry operates on a caller-supplied byte buffer.  We embed the buffer
as a `List Nat` of byte values and pointers into it as offsets; out-of-bounds
reads yield 0 (`List.getD`), and out-of-bounds writes are dropped
(`List.set`), mirroring the fact that in the C source all reads and writes
that matter stay inside the buffer.  Function pointers are stored in the
buffer as `ptrSize` little-endian bytes, as on the 64-bit host target of
src/runtime/crt/host/main.cc.
-/

/-- Size of one function pointer (`sizeof(void*)`) on the 64-bit host. -/
def ptrSize : Nat := 8

/-- Read the byte at offset `i` of buffer `buf` (0 when out of bounds). -/
def byteAt (buf : List Nat) (i : Nat) : Nat := buf.getD i 0

theorem byteAt_lt_of_ne_zero {buf : List Nat} {i : Nat} (h : byteAt buf i ≠ 0) :
    i < buf.length := by
  by_contra hlt
  exact h (List.getD_eq_default _ _ (Nat.le_of_not_lt hlt))

/-- The second loop of `strcmp_cursor`: `while (**cursor != 0) (*cursor)++;`.
Advances the cursor to the terminating NUL of the string it points into. -/
def skipToNul (buf : List Nat) (c : Nat) : Nat :=
  if h : byteAt buf c ≠ 0 then skipToNul buf (c + 1) else c
termination_by buf.length - c
decreasing_by
  exact Nat.sub_lt_sub_left (byteAt_lt_of_ne_zero h) (Nat.lt_succ_self c)

/-- The first loop of `strcmp_cursor`.  `c` is the cursor into the registry
names blob, `name` the remaining bytes of the query C string (`headD 0`
models the terminating NUL), `rv` the running `return_value`.  The loop body
assigns `return_value = n - c` before testing for the break, and only breaks
when the query is exhausted (`n == 0`; `c == 0` is impossible inside the
loop because the loop condition already checked `**cursor != 0`). -/
def strcmp_loop (buf : List Nat) (c : Nat) (name : List Nat) (rv : Int) :
    Int × Nat :=
  if h : byteAt buf c ≠ 0 then
    if name.headD 0 = 0 then
      ((name.headD 0 : Int) - (byteAt buf c : Int), c)
    else
      strcmp_loop buf (c + 1) name.tail
        ((name.headD 0 : Int) - (byteAt buf c : Int))
  else (rv, c)
termination_by buf.length - c
decreasing_by
  exact Nat.sub_lt_sub_left (byteAt_lt_of_ne_zero h) (Nat.lt_succ_self c)

/-- `strcmp_cursor` from packed_func.c: compare the stored string at cursor
`c` with the query `name`; return the `return_value` and the final cursor
(which the doc comment of the C function promises is the terminating NUL of
the stored string). -/
def strcmp_cursor (buf : List Nat) (c : Nat) (name : List Nat) : Int × Nat :=
  let r := strcmp_loop buf c name 0
  (r.1, skipToNul buf r.2)

theorem skipToNul_ge (buf : List Nat) (c : Nat) : c ≤ skipToNul buf c := by
  rw [skipToNul]
  split
  · exact Nat.le_trans (Nat.le_succ c) (skipToNul_ge buf (c + 1))
  · exact Nat.le_refl c
termination_by buf.length - c
decreasing_by
  exact Nat.sub_lt_sub_left (byteAt_lt_of_ne_zero (by assumption)) (Nat.lt_succ_self c)

theorem skipToNul_nul (buf : List Nat) (c : Nat) :
    byteAt buf (skipToNul buf c) = 0 := by
  rw [skipToNul]
  split
  · exact skipToNul_nul buf (c + 1)
  · exact of_not_not (by assumption)
termination_by buf.length - c
decreasing_by
  exact Nat.sub_lt_sub_left (byteAt_lt_of_ne_zero (by assumption)) (Nat.lt_succ_self c)

theorem skipToNul_min (buf : List Nat) (c : Nat) :
    ∀ j, c ≤ j → j < skipToNul buf c → byteAt buf j ≠ 0 := by
  intro j hcj hlt
  rw [skipToNul] at hlt
  split at hlt
  · rcases Nat.eq_or_lt_of_le hcj with rfl | hcj'
    · assumption
    · exact skipToNul_min buf (c + 1) j hcj' hlt
  · exact absurd hlt (Nat.not_lt_of_le hcj)
termination_by buf.length - c
decreasing_by
  exact Nat.sub_lt_sub_left (byteAt_lt_of_ne_zero (by assumption)) (Nat.lt_succ_self c)

theorem strcmp_loop_ge (buf : List Nat) (c : Nat) (name : List Nat) (rv : Int) :
    c ≤ (strcmp_loop buf c name rv).2 := by
  rw [strcmp_loop]
  split
  · split
    · exact Nat.le_refl c
    · exact Nat.le_trans (Nat.le_succ c) (strcmp_loop_ge buf (c + 1) name.tail _)
  · exact Nat.le_refl c
termination_by buf.length - c
decreasing_by
  exact Nat.sub_lt_sub_left (byteAt_lt_of_ne_zero (by assumption)) (Nat.lt_succ_self c)

theorem strcmp_loop_nonzero (buf : List Nat) (c : Nat) (name : List Nat) (rv : Int) :
    ∀ j, c ≤ j → j < (strcmp_loop buf c name rv).2 → byteAt buf j ≠ 0 := by
  intro j hcj hlt
  rw [strcmp_loop] at hlt
  split at hlt
  · split at hlt
    · exact absurd hlt (Nat.not_lt_of_le hcj)
    · rcases Nat.eq_or_lt_of_le hcj with rfl | hcj'
      · assumption
      · exact strcmp_loop_nonzero buf (c + 1) name.tail _ j hcj' hlt
  · exact absurd hlt (Nat.not_lt_of_le hcj)
termination_by buf.length - c
decreasing_by
  exact Nat.sub_lt_sub_left (byteAt_lt_of_ne_zero (by assumption)) (Nat.lt_succ_self c)

theorem strcmp_cursor_ge (buf : List Nat) (c : Nat) (name : List Nat) :
    c ≤ (strcmp_cursor buf c name).2 :=
  Nat.le_trans (strcmp_loop_ge buf c name 0) (skipToNul_ge buf _)

theorem strcmp_cursor_nul (buf : List Nat) (c : Nat) (name : List Nat) :
    byteAt buf (strcmp_cursor buf c name).2 = 0 :=
  skipToNul_nul buf _

theorem strcmp_cursor_min (buf : List Nat) (c : Nat) (name : List Nat) :
    ∀ j, c ≤ j → j < (strcmp_cursor buf c name).2 → byteAt buf j ≠ 0 := by
  intro j hcj hlt
  rcases Nat.lt_or_ge j (strcmp_loop buf c name 0).2 with h | h
  · exact strcmp_loop_nonzero buf c name 0 j hcj h
  · exact skipToNul_min buf _ j h hlt

/-- Result of the scan loop shared (textually) by `TVMFuncRegistry_Lookup`
and `TVMMutableFuncRegistry_Set`:
`for (p = names + 1; *p; p++) { if (!strcmp_cursor(&p, name)) ...; idx++; }`.
`found idx` models the early return on a zero comparison result; `notFound c
idx` models falling off the end of the names list, retaining the final
cursor (`reg_name_ptr`) and running index (`idx`). -/
inductive ScanResult where
  | found : Nat → ScanResult
  | notFound : Nat → Nat → ScanResult
deriving DecidableEq, Repr

/-- The registry scan loop itself, starting at cursor `c` with index `idx`. -/
def scanNames (buf name : List Nat) (c idx : Nat) : ScanResult :=
  if h : byteAt buf c ≠ 0 then
    let r := strcmp_cursor buf c name
    if r.1 = 0 then ScanResult.found idx
    else scanNames buf name (r.2 + 1) (idx + 1)
  else ScanResult.notFound c idx
termination_by buf.length - c
decreasing_by
  exact Nat.sub_lt_sub_left (byteAt_lt_of_ne_zero h)
    (Nat.lt_succ_of_le (strcmp_cursor_ge buf c name))

/-- `TVMFuncRegistry`: `names` points at the backing buffer (count byte,
then NUL-terminated names, then the end-of-names marker), `funcs` at offset
`funcsOff` of the same buffer. -/
structure TVMFuncRegistry where
  buffer : List Nat
  funcsOff : Nat
deriving DecidableEq, Repr

/-- `TVMMutableFuncRegistry`: a registry plus its `max_functions` capacity. -/
structure TVMMutableFuncRegistry where
  registry : TVMFuncRegistry
  max_functions : Nat
deriving DecidableEq, Repr

/-- `TVMFuncRegistry_Lookup`: scan from `names + 1`; on a zero comparison
result store the index and return 0 (modelled `some idx`); otherwise return
-1 (modelled `none`). -/
def TVMFuncRegistry_Lookup (reg : TVMFuncRegistry) (name : List Nat) :
    Option Nat :=
  match scanNames reg.buffer name 1 0 with
  | ScanResult.found idx => some idx
  | ScanResult.notFound _ _ => none

/-- Read `n` little-endian bytes starting at `off` as one value. -/
def readBytesLE (buf : List Nat) (off n : Nat) : Nat :=
  match n with
  | 0 => 0
  | k + 1 => byteAt buf off + 256 * readBytesLE buf (off + 1) k

/-- Write value `v` as `n` little-endian bytes starting at `off`. -/
def writeBytesLE (buf : List Nat) (off n v : Nat) : List Nat :=
  match n with
  | 0 => buf
  | k + 1 => writeBytesLE (buf.set off (v % 256)) (off + 1) k (v / 256)

/-- `TVMFuncRegistry_GetByIndex`: fail with -1 (`none`) when
`function_index >= names[0]`, else return `funcs[function_index]`. -/
def TVMFuncRegistry_GetByIndex (reg : TVMFuncRegistry)
    (function_index : Nat) : Option Nat :=
  let num_funcs := byteAt reg.buffer 0
  if num_funcs ≤ function_index then none
  else some (readBytesLE reg.buffer (reg.funcsOff + ptrSize * function_index) ptrSize)

/-- `TVMMutableFuncRegistry_Create`: zero bytes 0 (function count) and 1
(end-of-names marker), estimate `max_functions` from an average entry size
of `10 + 1 + sizeof(void*)` bytes, and place `funcs` at
`buffer + buffer_size - max_functions * sizeof(void*)`. -/
def TVMMutableFuncRegistry_Create (buffer : List Nat) :
    TVMMutableFuncRegistry :=
  let one_entry_size_bytes := 10 + 1 + ptrSize
  let max_functions := buffer.length / one_entry_size_bytes
  { registry :=
      { buffer := (buffer.set 0 0).set 1 0
        funcsOff := buffer.length - max_functions * ptrSize }
    max_functions := max_functions }

/-- `strcpy(reg_name_ptr, name)`: the bytes of `name` followed by a NUL. -/
def writeName (buf : List Nat) (c : Nat) (name : List Nat) : List Nat :=
  match name with
  | [] => buf.set c 0
  | b :: rest => writeName (buf.set c b) (c + 1) rest

/-- `TVMMutableFuncRegistry_Set`.  On a scan hit: fail (`none`) when
`override == 0`, else overwrite `funcs[idx]`.  On fall-through: fail when
`idx > max_functions` or the name bytes would extend past `funcs`
(pointer comparison `reg_name_ptr + name_len > funcs`); otherwise `strcpy`
the name, write the new end-of-names marker, store `funcs[idx]`, and
increment the count byte `names[0]`. -/
def TVMMutableFuncRegistry_Set (reg : TVMMutableFuncRegistry)
    (name : List Nat) (func : Nat) (override : Nat) :
    Option TVMMutableFuncRegistry :=
  match scanNames reg.registry.buffer name 1 0 with
  | ScanResult.found idx =>
    if override = 0 then none
    else some ⟨⟨writeBytesLE reg.registry.buffer
        (reg.registry.funcsOff + ptrSize * idx) ptrSize func,
      reg.registry.funcsOff⟩, reg.max_functions⟩
  | ScanResult.notFound cursor idx =>
    let name_len := name.length
    if idx > reg.max_functions ∨ cursor + name_len > reg.registry.funcsOff then
      none
    else
      let b1 := writeName reg.registry.buffer cursor name
      let b2 := b1.set (cursor + name_len + 1) 0
      let b3 := writeBytesLE b2 (reg.registry.funcsOff + ptrSize * idx) ptrSize func
      let b4 := b3.set 0 ((byteAt b3 0 + 1) % 256)
      some ⟨⟨b4, reg.registry.funcsOff⟩, reg.max_functions⟩

/-!
Fuelled versions of the scan loops.  The loop definitions above use
well-founded recursion and therefore do not reduce inside `decide`; the
fuelled versions below are structurally recursive and provably equal to them
whenever the fuel covers the buffer, which lets concrete registry states be
evaluated by the kernel.
-/

/-- Fuelled form of `skipToNul`. -/
def skipGo : Nat → List Nat → Nat → Nat
  | 0, _, c => c
  | fuel + 1, buf, c => if byteAt buf c ≠ 0 then skipGo fuel buf (c + 1) else c

theorem skipGo_eq (fuel : Nat) (buf : List Nat) (c : Nat)
    (h : buf.length ≤ c + fuel) : skipGo fuel buf c = skipToNul buf c := by
  induction fuel generalizing c with
  | zero =>
    rw [skipToNul]
    have hz : byteAt buf c = 0 := List.getD_eq_default _ _ (by omega)
    simp [skipGo, hz]
  | succ f ih =>
    rw [skipToNul, skipGo]
    split
    · exact ih (c + 1) (by omega)
    · rfl

/-- Fuelled form of `strcmp_loop`. -/
def strcmpLoopGo : Nat → List Nat → Nat → List Nat → Int → Int × Nat
  | 0, _, c, _, rv => (rv, c)
  | fuel + 1, buf, c, name, rv =>
    if byteAt buf c ≠ 0 then
      if name.headD 0 = 0 then
        ((name.headD 0 : Int) - (byteAt buf c : Int), c)
      else
        strcmpLoopGo fuel buf (c + 1) name.tail
          ((name.headD 0 : Int) - (byteAt buf c : Int))
    else (rv, c)

theorem strcmpLoopGo_eq (fuel : Nat) (buf : List Nat) (c : Nat)
    (name : List Nat) (rv : Int) (h : buf.length ≤ c + fuel) :
    strcmpLoopGo fuel buf c name rv = strcmp_loop buf c name rv := by
  induction fuel generalizing c name rv with
  | zero =>
    rw [strcmp_loop]
    have hz : byteAt buf c = 0 := List.getD_eq_default _ _ (by omega)
    simp [strcmpLoopGo, hz]
  | succ f ih =>
    rw [strcmp_loop, strcmpLoopGo]
    split
    · split
      · rfl
      · exact ih (c + 1) name.tail _ (by omega)
    · rfl

/-- Fuelled form of `strcmp_cursor`. -/
def strcmpCursorGo (fuel : Nat) (buf : List Nat) (c : Nat)
    (name : List Nat) : Int × Nat :=
  ((strcmpLoopGo fuel buf c name 0).1,
    skipGo fuel buf (strcmpLoopGo fuel buf c name 0).2)

theorem strcmpCursorGo_eq (fuel : Nat) (buf : List Nat) (c : Nat)
    (name : List Nat) (h : buf.length ≤ c + fuel) :
    strcmpCursorGo fuel buf c name = strcmp_cursor buf c name := by
  unfold strcmpCursorGo strcmp_cursor
  rw [strcmpLoopGo_eq fuel buf c name 0 h]
  rw [skipGo_eq fuel buf _ (Nat.le_trans h (by
    have := strcmp_loop_ge buf c name 0
    omega))]

/-- Fuelled form of `scanNames`. -/
def scanGo : Nat → List Nat → List Nat → Nat → Nat → ScanResult
  | 0, _, _, c, idx => ScanResult.notFound c idx
  | fuel + 1, buf, name, c, idx =>
    if byteAt buf c ≠ 0 then
      if (strcmpCursorGo (fuel + 1) buf c name).1 = 0 then ScanResult.found idx
      else
        scanGo fuel buf name ((strcmpCursorGo (fuel + 1) buf c name).2 + 1)
          (idx + 1)
    else ScanResult.notFound c idx

theorem scanGo_eq (fuel : Nat) (buf name : List Nat) (c idx : Nat)
    (h : buf.length ≤ c + fuel) :
    scanGo fuel buf name c idx = scanNames buf name c idx := by
  induction fuel generalizing c idx with
  | zero =>
    rw [scanNames]
    have hz : byteAt buf c = 0 := List.getD_eq_default _ _ (by omega)
    simp [scanGo, hz]
  | succ f ih =>
    rw [scanNames, scanGo]
    rw [strcmpCursorGo_eq (f + 1) buf c name (by omega)]
    by_cases hc : byteAt buf c ≠ 0
    · simp only [if_pos hc, dif_pos hc]
      by_cases hr : (strcmp_cursor buf c name).1 = 0
      · simp only [if_pos hr]
      · simp only [if_neg hr]
        refine ih ((strcmp_cursor buf c name).2 + 1) (idx + 1) ?_
        have := strcmp_cursor_ge buf c name
        omega
    · simp only [if_neg hc, dif_neg hc]

/-- Kernel-evaluable form of `TVMFuncRegistry_Lookup`. -/
def lookupImpl (reg : TVMFuncRegistry) (name : List Nat) : Option Nat :=
  match scanGo (reg.buffer.length + 1) reg.buffer name 1 0 with
  | ScanResult.found idx => some idx
  | ScanResult.notFound _ _ => none

theorem lookup_eq_impl (reg : TVMFuncRegistry) (name : List Nat) :
    TVMFuncRegistry_Lookup reg name = lookupImpl reg name := by
  unfold TVMFuncRegistry_Lookup lookupImpl
  rw [scanGo_eq _ _ _ _ _ (by omega)]

/-- Kernel-evaluable form of `TVMMutableFuncRegistry_Set`. -/
def setImpl (reg : TVMMutableFuncRegistry) (name : List Nat) (func : Nat)
    (override : Nat) : Option TVMMutableFuncRegistry :=
  match scanGo (reg.registry.buffer.length + 1) reg.registry.buffer name 1 0 with
  | ScanResult.found idx =>
    if override = 0 then none
    else some ⟨⟨writeBytesLE reg.registry.buffer
        (reg.registry.funcsOff + ptrSize * idx) ptrSize func,
      reg.registry.funcsOff⟩, reg.max_functions⟩
  | ScanResult.notFound cursor idx =>
    let name_len := name.length
    if idx > reg.max_functions ∨ cursor + name_len > reg.registry.funcsOff then
      none
    else
      let b1 := writeName reg.registry.buffer cursor name
      let b2 := b1.set (cursor + name_len + 1) 0
      let b3 := writeBytesLE b2 (reg.registry.funcsOff + ptrSize * idx) ptrSize func
      let b4 := b3.set 0 ((byteAt b3 0 + 1) % 256)
      some ⟨⟨b4, reg.registry.funcsOff⟩, reg.max_functions⟩

theorem set_eq_impl (reg : TVMMutableFuncRegistry) (name : List Nat)
    (func : Nat) (override : Nat) :
    TVMMutableFuncRegistry_Set reg name func override =
      setImpl reg name func override := by
  unfold TVMMutableFuncRegistry_Set setImpl
  rw [scanGo_eq _ _ _ _ _ (by omega)]

/-!
Characterisation of the scan over a well-formed names blob.  A names blob is
`name₁ ++ [0] ++ name₂ ++ [0] ++ ... ++ [0]` (final 0 = end-of-names
marker), preceded by the count byte at offset 0.
-/

theorem byteAt_append_right (pre t : List Nat) (k : Nat) :
    byteAt (pre ++ t) (pre.length + k) = byteAt t k := by
  unfold byteAt
  rw [List.getD_append_right pre t 0 _ (Nat.le_add_right _ _),
    Nat.add_sub_cancel_left]

theorem byteAt_append_lt (pre t : List Nat) (k : Nat) (h : k < pre.length) :
    byteAt (pre ++ t) k = byteAt pre k := by
  unfold byteAt
  rw [List.getD_append pre t 0 _ h]

theorem byteAt_set_ne (l : List Nat) (i j v : Nat) (h : i ≠ j) :
    byteAt (l.set i v) j = byteAt l j := by
  unfold byteAt
  simp [List.getD_eq_getElem?_getD, List.getElem?_set_ne h]

theorem byteAt_set_self (l : List Nat) (i v : Nat) (h : i < l.length) :
    byteAt (l.set i v) i = v := by
  unfold byteAt
  simp [List.getD_eq_getElem?_getD, List.getElem?_set_self (by simpa using h)]

/-- Bytes of a C string: all nonzero (and bytes). -/
def validCStr (q : List Nat) : Prop := ∀ b ∈ q, 0 < b ∧ b < 256

/-- A name stored in the registry: a nonempty C string. -/
def validName (s : List Nat) : Prop := s ≠ [] ∧ validCStr s

instance validCStrDec (q : List Nat) : Decidable (validCStr q) := by
  unfold validCStr
  infer_instance

instance validNameDec (s : List Nat) : Decidable (validName s) := by
  unfold validName
  infer_instance

/-- The comparison actually implemented by `strcmp_cursor` reports a match
(final `return_value == 0`) exactly when the stored name `s` is no longer
than the query `q` and the LAST byte of `s` coincides with the byte of `q`
at that position: the loop overwrites `return_value` on every iteration and
never breaks on an interior mismatch, so only the final comparison
survives. -/
def bugMatch (s q : List Nat) : Prop :=
  s ≠ [] ∧ s.length ≤ q.length ∧ q.getD (s.length - 1) 0 = s.getD (s.length - 1) 0

instance bugMatchDec (s q : List Nat) : Decidable (bugMatch s q) := by
  unfold bugMatch
  infer_instance

theorem bugMatch_self (q : List Nat) (hq : q ≠ []) : bugMatch q q :=
  ⟨hq, Nat.le_refl _, rfl⟩

/-- Abstract value of `strcmp_loop`'s `return_value` on stored name `s`,
query `q`, incoming accumulator `rv`. -/
def loopRVacc : List Nat → List Nat → Int → Int
  | [], _, rv => rv
  | a :: _, [], _ => 0 - (a : Int)
  | a :: s', n :: q', _ => loopRVacc s' q' ((n : Int) - (a : Int))

/-- Number of iterations of `strcmp_loop` that advance the cursor. -/
def loopSteps : List Nat → List Nat → Nat
  | [], _ => 0
  | _ :: _, [] => 0
  | _ :: s', _ :: q' => loopSteps s' q' + 1

theorem loopSteps_le (s q : List Nat) : loopSteps s q ≤ s.length := by
  induction s generalizing q with
  | nil => simp [loopSteps]
  | cons a s' ih =>
    cases q with
    | nil => simp [loopSteps]
    | cons n q' => simpa [loopSteps] using ih q'

theorem strcmp_loop_spec (s : List Nat) :
    ∀ (q pre rest buf : List Nat) (c : Nat) (rv : Int),
    buf = pre ++ s ++ 0 :: rest → c = pre.length →
    (∀ b ∈ s, b ≠ 0) → (∀ b ∈ q, b ≠ 0) →
    strcmp_loop buf c q rv = (loopRVacc s q rv, c + loopSteps s q) := by
  induction s with
  | nil =>
    intro q pre rest buf c rv hbuf hc _ _
    have h0 : byteAt buf c = 0 := by
      subst hbuf hc
      simpa using byteAt_append_right pre (0 :: rest) 0
    rw [strcmp_loop]
    simp [h0, loopRVacc, loopSteps]
  | cons a s' ih =>
    intro q pre rest buf c rv hbuf hc hs hq
    have ha : a ≠ 0 := hs a (List.mem_cons_self a s')
    have hA : byteAt buf c = a := by
      subst hbuf hc
      simpa using byteAt_append_right pre (a :: (s' ++ 0 :: rest)) 0
    rw [strcmp_loop]
    rw [dif_pos (by rw [hA]; exact ha)]
    cases q with
    | nil =>
      simp [hA, loopRVacc, loopSteps]
    | cons n q' =>
      have hn : n ≠ 0 := hq n (List.mem_cons_self n q')
      rw [if_neg (by simpa using hn)]
      have hbuf' : buf = (pre ++ [a]) ++ s' ++ 0 :: rest := by
        rw [hbuf]; simp
      have hc' : c + 1 = (pre ++ [a]).length := by
        rw [hc]; simp
      have := ih q' (pre ++ [a]) rest buf (c + 1)
        ((((n : Nat) : Int)) - ((a : Nat) : Int)) hbuf' hc'
        (fun b hb => hs b (List.mem_cons_of_mem a hb))
        (fun b hb => hq b (List.mem_cons_of_mem n hb))
      simp only [List.tail_cons, List.headD_cons] at this ⊢
      rw [hA, this]
      simp [loopRVacc, loopSteps]
      omega

theorem skipToNul_spec (s : List Nat) :
    ∀ (pre rest buf : List Nat) (c : Nat),
    buf = pre ++ s ++ 0 :: rest → c = pre.length →
    (∀ b ∈ s, b ≠ 0) → skipToNul buf c = c + s.length := by
  induction s with
  | nil =>
    intro pre rest buf c hbuf hc _
    have h0 : byteAt buf c = 0 := by
      subst hbuf hc
      simpa using byteAt_append_right pre (0 :: rest) 0
    rw [skipToNul]
    simp [h0]
  | cons a s' ih =>
    intro pre rest buf c hbuf hc hs
    have ha : a ≠ 0 := hs a (List.mem_cons_self a s')
    have hA : byteAt buf c = a := by
      subst hbuf hc
      simpa using byteAt_append_right pre (a :: (s' ++ 0 :: rest)) 0
    rw [skipToNul, dif_pos (by rw [hA]; exact ha)]
    have := ih (pre ++ [a]) rest buf (c + 1) (by rw [hbuf]; simp)
      (by rw [hc]; simp) (fun b hb => hs b (List.mem_cons_of_mem a hb))
    rw [this]
    simp
    omega

theorem strcmp_cursor_spec (s q pre rest buf : List Nat) (c : Nat)
    (hbuf : buf = pre ++ s ++ 0 :: rest) (hc : c = pre.length)
    (hs : ∀ b ∈ s, b ≠ 0) (hq : ∀ b ∈ q, b ≠ 0) :
    strcmp_cursor buf c q = (loopRVacc s q 0, c + s.length) := by
  unfold strcmp_cursor
  rw [strcmp_loop_spec s q pre rest buf c 0 hbuf hc hs hq]
  have hsteps : loopSteps s q ≤ s.length := loopSteps_le s q
  have hskip : skipToNul buf (c + loopSteps s q) =
      (c + loopSteps s q) + (s.drop (loopSteps s q)).length := by
    refine skipToNul_spec (s.drop (loopSteps s q))
      (pre ++ s.take (loopSteps s q)) rest buf (c + loopSteps s q) ?_ ?_ ?_
    · rw [hbuf]
      conv_lhs => rw [← List.take_append_drop (loopSteps s q) s]
      simp [List.append_assoc]
    · simp [hc, List.length_take, Nat.min_eq_left hsteps]
    · intro b hb
      exact hs b (List.mem_of_mem_drop hb)
  simp only [hskip, List.length_drop]
  have harith : c + loopSteps s q + (s.length - loopSteps s q) = c + s.length := by
    omega
  rw [harith]

theorem loopRVacc_eq_zero_iff (s : List Nat) :
    ∀ (q : List Nat) (rv : Int), s ≠ [] → (∀ b ∈ s, b ≠ 0) →
    (loopRVacc s q rv = 0 ↔ bugMatch s q) := by
  induction s with
  | nil => intro q rv h; exact absurd rfl h
  | cons a s' ih =>
    intro q rv _ hs
    have ha : a ≠ 0 := hs a (List.mem_cons_self a s')
    cases q with
    | nil =>
      simp only [loopRVacc, bugMatch]
      constructor
      · intro h
        exfalso
        have : (a : Int) = 0 := by omega
        exact ha (by exact_mod_cast this)
      · rintro ⟨-, hlen, -⟩
        simp at hlen
    | cons n q' =>
      cases s' with
      | nil =>
        simp only [loopRVacc, bugMatch]
        constructor
        · intro h
          have : n = a := by exact_mod_cast (by omega : (n : Int) = (a : Int))
          exact ⟨List.cons_ne_nil a [], by simp, by simp [List.getD, this]⟩
        · rintro ⟨-, -, hgd⟩
          simp [List.getD] at hgd
          have : (n : Int) = (a : Int) := by exact_mod_cast hgd
          omega
      | cons b s'' =>
        have hne : (b :: s'') ≠ ([] : List Nat) := List.cons_ne_nil b s''
        have hs' : ∀ x ∈ b :: s'', x ≠ 0 :=
          fun x hx => hs x (List.mem_cons_of_mem a hx)
        have hiff := ih q' (((n : Nat) : Int) - ((a : Nat) : Int)) hne hs'
        simp only [loopRVacc]
        rw [hiff]
        unfold bugMatch
        constructor
        · rintro ⟨-, hlen, hgd⟩
          refine ⟨List.cons_ne_nil a _, by simpa using Nat.succ_le_succ hlen, ?_⟩
          simpa [List.length_cons, Nat.succ_sub_one] using hgd
        · rintro ⟨-, hlen, hgd⟩
          refine ⟨hne, by simpa using hlen, ?_⟩
          simpa [List.length_cons, Nat.succ_sub_one] using hgd

/-- The names blob of a registry holding `ns`: each name followed by its
NUL, then the end-of-names marker. -/
def encodeNames : List (List Nat) → List Nat
  | [] => [0]
  | s :: ns => s ++ 0 :: encodeNames ns

/-- Total size of the stored names including their NULs (marker excluded). -/
def namesSize : List (List Nat) → Nat
  | [] => 0
  | s :: ns => s.length + 1 + namesSize ns

theorem encodeNames_length (ns : List (List Nat)) :
    (encodeNames ns).length = namesSize ns + 1 := by
  induction ns with
  | nil => simp [encodeNames, namesSize]
  | cons s ns ih => simp [encodeNames, namesSize, ih]; omega

/-- Abstract behaviour of the registry scan loop on a well-formed blob:
report the first stored name that `strcmp_cursor` considers equal to the
query (`bugMatch`), or fall off the end. -/
def scanModel : List (List Nat) → List Nat → Nat → Nat → ScanResult
  | [], _, c, idx => ScanResult.notFound c idx
  | s :: ns, q, c, idx =>
    if bugMatch s q then ScanResult.found idx
    else scanModel ns q (c + s.length + 1) (idx + 1)

theorem scanNames_spec (ns : List (List Nat)) :
    ∀ (q pre rest buf : List Nat) (c idx : Nat),
    buf = pre ++ encodeNames ns ++ rest → c = pre.length →
    (∀ s ∈ ns, validName s) → validCStr q →
    scanNames buf q c idx = scanModel ns q c idx := by
  induction ns with
  | nil =>
    intro q pre rest buf c idx hbuf hc _ _
    have h0 : byteAt buf c = 0 := by
      subst hbuf hc
      simpa [encodeNames] using byteAt_append_right pre (0 :: rest) 0
    rw [scanNames]
    simp [h0, scanModel]
  | cons s ns ih =>
    intro q pre rest buf c idx hbuf hc hns hq
    have hsv : validName s := hns s (List.mem_cons_self s ns)
    obtain ⟨hsne, hsb⟩ := hsv
    have hs0 : ∀ b ∈ s, b ≠ 0 := fun b hb => Nat.pos_iff_ne_zero.mp (hsb b hb).1
    have hq0 : ∀ b ∈ q, b ≠ 0 := fun b hb => Nat.pos_iff_ne_zero.mp (hq b hb).1
    have hbuf' : buf = pre ++ s ++ 0 :: (encodeNames ns ++ rest) := by
      rw [hbuf]
      simp [encodeNames, List.append_assoc]
    have hcur := strcmp_cursor_spec s q pre (encodeNames ns ++ rest) buf c
      hbuf' hc hs0 hq0
    have hnz : byteAt buf c ≠ 0 := by
      cases s with
      | nil => exact absurd rfl hsne
      | cons a s' =>
        have : byteAt buf c = a := by
          subst hc
          rw [hbuf']
          simpa using byteAt_append_right pre (a :: (s' ++ 0 :: (encodeNames ns ++ rest))) 0
        rw [this]
        exact hs0 a (List.mem_cons_self a s')
    rw [scanNames, dif_pos hnz]
    simp only [hcur]
    have hmatch := loopRVacc_eq_zero_iff s q 0 hsne hs0
    by_cases hbm : bugMatch s q
    · rw [if_pos (hmatch.mpr hbm)]
      simp [scanModel, hbm]
    · rw [if_neg (fun h => hbm (hmatch.mp h))]
      have hrec := ih q (pre ++ s ++ [0]) rest buf (c + s.length + 1) (idx + 1)
        (by rw [hbuf]; simp [encodeNames, List.append_assoc])
        (by rw [hc]; simp; omega)
        (fun t ht => hns t (List.mem_cons_of_mem s ht)) hq
      simp only [scanModel, if_neg hbm]
      exact hrec

theorem scanModel_notFound (ns : List (List Nat)) (q : List Nat)
    (hnm : ∀ s ∈ ns, ¬ bugMatch s q) :
    ∀ c idx, scanModel ns q c idx =
      ScanResult.notFound (c + namesSize ns) (idx + ns.length) := by
  induction ns with
  | nil => intro c idx; simp [scanModel, namesSize]
  | cons s ns ih =>
    intro c idx
    rw [scanModel, if_neg (hnm s (List.mem_cons_self s ns))]
    rw [ih (fun t ht => hnm t (List.mem_cons_of_mem s ht))]
    simp [namesSize]
    constructor
    · omega
    · omega

theorem scanModel_found (ns : List (List Nat)) (q : List Nat) :
    ∀ (i c idx : Nat), i < ns.length →
    bugMatch (ns.getD i []) q →
    (∀ j, j < i → ¬ bugMatch (ns.getD j []) q) →
    scanModel ns q c idx = ScanResult.found (idx + i) := by
  induction ns with
  | nil => intro i c idx hi; simp at hi
  | cons s ns ih =>
    intro i c idx hi hm hb
    cases i with
    | zero =>
      simp only [List.getD_cons_zero] at hm
      rw [scanModel, if_pos hm, Nat.add_zero]
    | succ i' =>
      have hnot : ¬ bugMatch s q := by
        have := hb 0 (Nat.succ_pos i')
        simpa using this
      rw [scanModel, if_neg hnot]
      rw [ih i' (c + s.length + 1) (idx + 1) (by simpa using Nat.lt_of_succ_lt_succ hi)
        (by simpa using hm)
        (fun j hj => by simpa using hb (j + 1) (Nat.succ_lt_succ hj))]
      congr 1
      omega

/-!
Lemmas about the byte-writing primitives used by the insert path of
`TVMMutableFuncRegistry_Set`.
-/

theorem writeName_spec (q : List Nat) :
    ∀ (pre junk buf : List Nat) (c : Nat),
    buf = pre ++ junk → c = pre.length → q.length + 1 ≤ junk.length →
    writeName buf c q = pre ++ q ++ 0 :: junk.drop (q.length + 1) := by
  induction q with
  | nil =>
    intro pre junk buf c hbuf hc hlen
    cases junk with
    | nil => simp at hlen
    | cons j0 junk' =>
      subst hbuf hc
      rw [writeName, List.set_append_right _ _ (Nat.le_refl _)]
      simp
  | cons b q' ih =>
    intro pre junk buf c hbuf hc hlen
    cases junk with
    | nil => simp at hlen
    | cons j0 junk' =>
      subst hbuf hc
      rw [writeName, List.set_append_right _ _ (Nat.le_refl _)]
      have hset : (j0 :: junk').set (pre.length - pre.length) b = b :: junk' := by
        simp
      rw [hset]
      have hre : pre ++ b :: junk' = (pre ++ [b]) ++ junk' := by simp
      have := ih (pre ++ [b]) junk' ((pre ++ [b]) ++ junk') (pre.length + 1)
        rfl (by simp) (by simp at hlen ⊢; omega)
      rw [hre, this]
      simp [List.append_assoc]

theorem writeBytesLE_length (n : Nat) :
    ∀ (buf : List Nat) (off v : Nat),
    (writeBytesLE buf off n v).length = buf.length := by
  induction n with
  | zero => intro buf off v; rfl
  | succ k ih =>
    intro buf off v
    rw [writeBytesLE, ih]
    simp

theorem byteAt_writeBytesLE_lt (n : Nat) :
    ∀ (buf : List Nat) (off v j : Nat), j < off →
    byteAt (writeBytesLE buf off n v) j = byteAt buf j := by
  induction n with
  | zero => intro buf off v j _; rfl
  | succ k ih =>
    intro buf off v j hj
    rw [writeBytesLE, ih _ _ _ _ (Nat.lt_succ_of_lt hj)]
    exact byteAt_set_ne _ _ _ _ (Nat.ne_of_gt hj)

theorem byteAt_writeBytesLE_ge (n : Nat) :
    ∀ (buf : List Nat) (off v j : Nat), off + n ≤ j →
    byteAt (writeBytesLE buf off n v) j = byteAt buf j := by
  induction n with
  | zero => intro buf off v j _; rfl
  | succ k ih =>
    intro buf off v j hj
    rw [writeBytesLE, ih _ _ _ _ (by omega)]
    exact byteAt_set_ne _ _ _ _ (by omega)

theorem writeBytesLE_append (n : Nat) :
    ∀ (pre t : List Nat) (off v : Nat), pre.length ≤ off →
    writeBytesLE (pre ++ t) off n v =
      pre ++ writeBytesLE t (off - pre.length) n v := by
  induction n with
  | zero => intro pre t off v _; rfl
  | succ k ih =>
    intro pre t off v hoff
    rw [writeBytesLE, writeBytesLE]
    rw [List.set_append_right _ _ hoff]
    rw [ih pre _ (off + 1) _ (by omega)]
    congr 2
    omega

theorem readBytesLE_append_right (n : Nat) :
    ∀ (pre t : List Nat) (k : Nat),
    readBytesLE (pre ++ t) (pre.length + k) n = readBytesLE t k n := by
  induction n with
  | zero => intro pre t k; rfl
  | succ m ih =>
    intro pre t k
    rw [readBytesLE, readBytesLE, byteAt_append_right]
    have : pre.length + k + 1 = pre.length + (k + 1) := by omega
    rw [this, ih]

theorem readBytesLE_set_lt (n : Nat) :
    ∀ (buf : List Nat) (i v off : Nat), i < off →
    readBytesLE (buf.set i v) off n = readBytesLE buf off n := by
  induction n with
  | zero => intro buf i v off _; rfl
  | succ k ih =>
    intro buf i v off hi
    rw [readBytesLE, readBytesLE, byteAt_set_ne _ _ _ _ (Nat.ne_of_lt hi),
      ih _ _ _ _ (Nat.lt_succ_of_lt hi)]

theorem readBytesLE_writeBytesLE (n : Nat) :
    ∀ (buf : List Nat) (off v : Nat), v < 256 ^ n → off + n ≤ buf.length →
    readBytesLE (writeBytesLE buf off n v) off n = v := by
  induction n with
  | zero =>
    intro buf off v hv _
    simp [readBytesLE]
    omega
  | succ k ih =>
    intro buf off v hv hoff
    rw [writeBytesLE, readBytesLE]
    have h1 : byteAt (writeBytesLE (buf.set off (v % 256)) (off + 1) k (v / 256)) off
        = v % 256 := by
      rw [byteAt_writeBytesLE_lt _ _ _ _ _ (Nat.lt_succ_self off)]
      exact byteAt_set_self _ _ _ (by omega)
    have h2 : readBytesLE (writeBytesLE (buf.set off (v % 256)) (off + 1) k (v / 256))
        (off + 1) k = v / 256 := by
      refine ih _ _ _ ?_ ?_
      · have h256 : 0 < 256 := by omega
        rw [Nat.div_lt_iff_lt_mul h256]
        calc v < 256 ^ (k + 1) := hv
        _ = 256 ^ k * 256 := by rw [Nat.pow_succ]
      · simpa using Nat.le_trans (by omega) hoff
    rw [h1, h2, Nat.mod_add_div]

/-!
Session layer (src/runtime/crt/rpc_server/session.h) and, modelled from the
spec where the implementation files are not part of this slice, the CRC16
engine and the framing layer.
-/

/-- `MessageType` enum from session.h (`uint8_t` wire values). -/
inductive MessageType where
  | kStartSessionMessage
  | kLogMessage
  | kNormalTraffic
deriving DecidableEq, Repr

/-- Wire value of each `MessageType`: `0x00`, `0x01`, `0x10` in session.h. -/
def MessageType.wireValue : MessageType → Nat
  | MessageType.kStartSessionMessage => 0x00
  | MessageType.kLogMessage => 0x01
  | MessageType.kNormalTraffic => 0x10

/-- `SessionHeader` from session.h: `uint16_t session_id` followed by
`MessageType message_type`, declared `__attribute__((packed))`. -/
structure SessionHeader where
  session_id : Nat
  message_type : MessageType
deriving DecidableEq, Repr

/-- Byte image of the packed `SessionHeader`: the 16-bit `session_id` in the
host's little-endian byte order followed by the `message_type` byte.  The
`packed` attribute makes the struct exactly these 3 bytes, no padding. -/
def encodeSessionHeader (h : SessionHeader) : List Nat :=
  [h.session_id % 256, h.session_id / 256 % 256, h.message_type.wireValue]

/-- Recover a `MessageType` from its wire byte. -/
def decodeMessageType (b : Nat) : Option MessageType :=
  if b = 0x00 then some MessageType.kStartSessionMessage
  else if b = 0x01 then some MessageType.kLogMessage
  else if b = 0x10 then some MessageType.kNormalTraffic
  else none

/-- Modelled from the spec: seed of the CRC16 accumulator (§3: CRC over the
empty sequence equals a fixed seed constant).  The CRC implementation file
of the framing layer is not part of this slice; the CCITT seed is the model
choice. -/
def crc16Seed : Nat := 0xFFFF

/-- Modelled from the spec: one byte step of the incremental CRC16 engine
(§4.2).  The implementation file is not part of this slice; the CCITT
polynomial 0x1021 is the model choice.  All claims proved about the engine
depend only on its byte-fold structure. -/
def crc16Byte (crc b : Nat) : Nat :=
  (List.range 8).foldl
    (fun c _ => if 32768 ≤ c then ((c * 2) ^^^ 0x1021) % 65536 else (c * 2) % 65536)
    ((crc ^^^ (b * 256)) % 65536)

/-- Modelled from the spec: `Update(crc, data, n) -> new_crc` (§4.2),
processing the bytes of `data` incrementally through `crc16Byte`. -/
def crc16Update (crc : Nat) (data : List Nat) : Nat := data.foldl crc16Byte crc

/-- Modelled from the spec: the framing layer's escape byte (a reserved wire
byte value; §4.3 requires at least the delimiter and the escape byte itself
to be escaped).  Concrete value is a model choice. -/
def kEscapeByte : Nat := 0xFF

/-- Modelled from the spec: the frame delimiter / terminator byte (§6).
Concrete value is a model choice. -/
def kFrameDelim : Nat := 0xFE

/-- Modelled from the spec: escape every reserved byte of the payload by
prefixing it with `kEscapeByte` (§4.3). -/
def escapeBytes : List Nat → List Nat
  | [] => []
  | b :: rest =>
    if b = kEscapeByte ∨ b = kFrameDelim then kEscapeByte :: b :: escapeBytes rest
    else b :: escapeBytes rest

/-- The CRC16 of a payload as its two little-endian wire bytes. -/
def crc16LE (p : List Nat) : List Nat :=
  [crc16Update crc16Seed p % 256, crc16Update crc16Seed p / 256 % 256]

/-- Modelled from the spec: `Framer::Write` (§4.3/§6): the escaped payload,
followed by the (escaped) CRC16 of the unescaped payload, followed by the
frame terminator. -/
def frameWrite (p : List Nat) : List Nat :=
  escapeBytes (p ++ crc16LE p) ++ [kFrameDelim]

/-- Modelled from the spec: receive states of the framing layer (§4.3). -/
inductive FramerRxState where
  | reading
  | readingEscaped
deriving DecidableEq, Repr

/-- Modelled from the spec: the framer's receive machine - current state and
the de-escaped bytes accumulated for the frame in progress. -/
structure FramerRx where
  st : FramerRxState
  acc : List Nat
deriving DecidableEq, Repr

/-- Receive state ready for a new frame. -/
def framerRxInit : FramerRx := ⟨FramerRxState.reading, []⟩

/-- Modelled from the spec: consume one raw wire byte (§4.3).  An escape
byte makes the next byte literal; the terminator closes the frame, checks
the trailing CRC16 against the accumulated payload and emits
`(payload, is_valid)`; any other byte is accumulated. -/
def framerRxByte (r : FramerRx) (b : Nat) : FramerRx × List (List Nat × Bool) :=
  match r.st with
  | FramerRxState.readingEscaped =>
    (⟨FramerRxState.reading, r.acc ++ [b]⟩, [])
  | FramerRxState.reading =>
    if b = kEscapeByte then (⟨FramerRxState.readingEscaped, r.acc⟩, [])
    else if b = kFrameDelim then
      (framerRxInit,
        [(r.acc.take (r.acc.length - 2),
          decide (2 ≤ r.acc.length ∧
            r.acc.drop (r.acc.length - 2) = crc16LE (r.acc.take (r.acc.length - 2))))])
    else (⟨FramerRxState.reading, r.acc ++ [b]⟩, [])

/-- Feed a byte sequence through the receive machine, collecting emitted
`(payload, is_valid)` events. -/
def framerRxFeed (r : FramerRx) (bytes : List Nat) :
    FramerRx × List (List Nat × Bool) :=
  match bytes with
  | [] => (r, [])
  | b :: rest =>
    ((framerRxFeed (framerRxByte r b).1 rest).1,
      (framerRxByte r b).2 ++ (framerRxFeed (framerRxByte r b).1 rest).2)

/-- `Session::State` from session.h. -/
inductive SessionState where
  | kReset
  | kStartSessionSent
  | kSessionEstablished
deriving DecidableEq, Repr

/-- Modelled from the spec: the byte `Buffer` (buffer.h is not part of this
slice; §3: fixed backing storage with read and write cursors). -/
structure BufferModel where
  data : List Nat
  read_cursor : Nat
  write_cursor : Nat
deriving DecidableEq, Repr

/-- Modelled from the spec: `Buffer::Clear` resets both cursors to 0 (§3). -/
def BufferModel.clear (b : BufferModel) : BufferModel :=
  { b with read_cursor := 0, write_cursor := 0 }

/-- State of a `Session` object (fields of the class in session.h). -/
structure SessionModel where
  nonce : Nat
  state : SessionState
  session_id : Nat
  receive_buffer : Option BufferModel
  receive_buffer_has_complete_message : Bool
deriving DecidableEq, Repr

/-- The `Session` constructor from session.h: member initialisers set
`state_` to `kReset`, `session_id_` to 0 and
`receive_buffer_has_complete_message_` to false; the body clears the
receive buffer when it is non-null (`nullptr` is modelled as `none`) and is
explicitly allowed, for startup logging. -/
def Session_construct (initial_session_nonce : Nat)
    (receive_buffer : Option BufferModel) : SessionModel :=
  { nonce := initial_session_nonce
    state := SessionState.kReset
    session_id := 0
    receive_buffer := receive_buffer.map BufferModel.clear
    receive_buffer_has_complete_message := false }

/-- `Session::IsEstablished` from session.h:
`state_ == State::kSessionEstablished`. -/
def Session_IsEstablished (s : SessionModel) : Bool :=
  decide (s.state = SessionState.kSessionEstablished)

/-- Modelled from the spec: `Session::SendMessage` (session.cc is not part
of this slice; §4.4): fails when the message type requires an established
session and the session is not established (policy: `StartSessionMessage`
and `Log` may be sent before establishment, `Normal` traffic requires
`IsEstablished()`); otherwise emits the framed session header plus body. -/
def Session_SendMessage (s : SessionModel) (message_type : MessageType)
    (data : List Nat) : Option (List Nat) :=
  if message_type = MessageType.kNormalTraffic ∧ Session_IsEstablished s = false
  then none
  else some (frameWrite (encodeSessionHeader ⟨s.session_id, message_type⟩ ++ data))

/-- Modelled from the spec: the receive-side dispatch of a completed frame
(§4.4 `PacketDone`): an invalid or short payload is dropped without a
callback; a `StartSessionMessage` goes to handshake handling, not to the
user callback; other types reach the message-received callback only if the
session is established or the type is exempt (`Log`).  Returns the callback
invocation `(message_type, body)` when one happens. -/
def Session_onPacketCallback (s : SessionModel) (payload : List Nat)
    (is_valid : Bool) : Option (MessageType × List Nat) :=
  if is_valid = false then none
  else if payload.length < 3 then none
  else
    match decodeMessageType (byteAt payload 2) with
    | none => none
    | some MessageType.kStartSessionMessage => none
    | some MessageType.kLogMessage => some (MessageType.kLogMessage, payload.drop 3)
    | some MessageType.kNormalTraffic =>
      if Session_IsEstablished s = false then none
      else some (MessageType.kNormalTraffic, payload.drop 3)

theorem crc16Update_append (c : Nat) (a b : List Nat) :
    crc16Update c (a ++ b) = crc16Update (crc16Update c a) b := by
  unfold crc16Update
  exact List.foldl_append _ _ _ _

theorem framerRxFeed_escape (xs : List Nat) :
    ∀ (acc rest : List Nat),
    framerRxFeed ⟨FramerRxState.reading, acc⟩ (escapeBytes xs ++ rest) =
      framerRxFeed ⟨FramerRxState.reading, acc ++ xs⟩ rest := by
  induction xs with
  | nil => intro acc rest; simp [escapeBytes]
  | cons b xs' ih =>
    intro acc rest
    by_cases hb : b = kEscapeByte ∨ b = kFrameDelim
    · rw [escapeBytes, if_pos hb]
      have h1 : framerRxByte ⟨FramerRxState.reading, acc⟩ kEscapeByte =
          (⟨FramerRxState.readingEscaped, acc⟩, []) := by
        simp [framerRxByte]
      have h2 : framerRxByte ⟨FramerRxState.readingEscaped, acc⟩ b =
          (⟨FramerRxState.reading, acc ++ [b]⟩, []) := by
        simp [framerRxByte]
      rw [List.cons_append, List.cons_append, framerRxFeed, h1]
      dsimp only
      rw [framerRxFeed, h2]
      dsimp only
      rw [ih (acc ++ [b]) rest]
      simp
    · push_neg at hb
      rw [escapeBytes, if_neg (by tauto)]
      have h1 : framerRxByte ⟨FramerRxState.reading, acc⟩ b =
          (⟨FramerRxState.reading, acc ++ [b]⟩, []) := by
        simp [framerRxByte, hb.1, hb.2]
      rw [List.cons_append, framerRxFeed, h1]
      dsimp only
      rw [ih (acc ++ [b]) rest]
      simp

theorem framer_roundtrip (p : List Nat) :
    framerRxFeed framerRxInit (frameWrite p) = (framerRxInit, [(p, true)]) := by
  unfold frameWrite framerRxInit
  rw [framerRxFeed_escape (p ++ crc16LE p) [] [kFrameDelim]]
  simp only [List.nil_append]
  have hlen : (p ++ crc16LE p).length = p.length + 2 := by
    simp [crc16LE]
  have htake : (p ++ crc16LE p).take ((p ++ crc16LE p).length - 2) = p := by
    rw [hlen]
    have : p.length + 2 - 2 = p.length := by omega
    rw [this]
    exact List.take_left p (crc16LE p)
  have hdrop : (p ++ crc16LE p).drop ((p ++ crc16LE p).length - 2) = crc16LE p := by
    rw [hlen]
    have : p.length + 2 - 2 = p.length := by omega
    rw [this]
    exact List.drop_left p (crc16LE p)
  have hvalid : decide (2 ≤ (p ++ crc16LE p).length ∧
      (p ++ crc16LE p).drop ((p ++ crc16LE p).length - 2) = crc16LE p) = true := by
    rw [decide_eq_true_eq]
    exact ⟨by rw [hlen]; omega, hdrop⟩
  have hbyte : framerRxByte ⟨FramerRxState.reading, p ++ crc16LE p⟩ kFrameDelim =
      (framerRxInit, [(p, true)]) := by
    rw [framerRxByte]
    dsimp only
    rw [if_neg (by unfold kFrameDelim kEscapeByte; omega)]
    rw [if_pos rfl]
    rw [htake, hvalid]
  rw [framerRxFeed, hbyte]
  dsimp only
  rw [framerRxFeed]
  simp [framerRxInit]

/-!
Claim theorems.
-/

/-- C5: the session header is exactly 3 bytes with no padding - the 16-bit
`session_id` followed by the one-byte `message_type` whose wire values are
0x00 for StartSession, 0x01 for Log and 0x10 for Normal traffic; the values
are distinct (injective), and the encoded bytes recover the fields. -/
theorem session_header_wire_format :
    (∀ h : SessionHeader, (encodeSessionHeader h).length = 3) ∧
    MessageType.wireValue MessageType.kStartSessionMessage = 0x00 ∧
    MessageType.wireValue MessageType.kLogMessage = 0x01 ∧
    MessageType.wireValue MessageType.kNormalTraffic = 0x10 ∧
    (∀ a b : MessageType, a.wireValue = b.wireValue → a = b) ∧
    (∀ h : SessionHeader,
      byteAt (encodeSessionHeader h) 2 = h.message_type.wireValue ∧
      byteAt (encodeSessionHeader h) 0 + 256 * byteAt (encodeSessionHeader h) 1 =
        h.session_id % 65536) := by
  refine ⟨fun h => rfl, rfl, rfl, rfl, ?_, ?_⟩
  · intro a b hab
    cases a <;> cases b <;> simp [MessageType.wireValue] at hab ⊢
  · intro h
    refine ⟨rfl, ?_⟩
    show h.session_id % 256 + 256 * (h.session_id / 256 % 256) = h.session_id % 65536
    omega

/-- Witness for C5 at a concrete header. -/
theorem session_header_wire_format_witness :
    (encodeSessionHeader ⟨4660, MessageType.kNormalTraffic⟩).length = 3 :=
  session_header_wire_format.1 ⟨4660, MessageType.kNormalTraffic⟩

/-- C6: CRC over the empty sequence is the seed, and feeding any partition
of a payload chunk-by-chunk through the incremental `Update`, threading the
accumulator, gives the same value as one `Update` over the whole payload. -/
theorem crc16_chunked_eq_whole :
    crc16Update crc16Seed [] = crc16Seed ∧
    ∀ chunks : List (List Nat),
      chunks.foldl crc16Update crc16Seed = crc16Update crc16Seed chunks.flatten := by
  refine ⟨rfl, ?_⟩
  have hgen : ∀ (chunks : List (List Nat)) (acc : Nat),
      chunks.foldl crc16Update acc = crc16Update acc chunks.flatten := by
    intro chunks
    induction chunks with
    | nil => intro acc; rfl
    | cons c cs ih =>
      intro acc
      rw [List.foldl_cons, ih, List.flatten_cons, crc16Update_append]
  exact fun chunks => hgen chunks crc16Seed

/-- Witness for C6 at a concrete partition. -/
theorem crc16_chunked_eq_whole_witness :
    ([[1, 2], [3]] : List (List Nat)).foldl crc16Update crc16Seed =
      crc16Update crc16Seed [1, 2, 3] :=
  crc16_chunked_eq_whole.2 [[1, 2], [3]]

/-- C8: regardless of the comparison outcome, after `strcmp_cursor` returns
the cursor is at or after its entry position, points at a NUL, and every
byte strictly between entry and exit is nonzero - i.e. it stops exactly at
the NUL terminating the stored string it pointed into, so the scan loops of
`Lookup` and `Set` advance entry by entry and stop at the end-of-names
marker. -/
theorem strcmp_cursor_stops_at_terminating_nul (buf : List Nat) (c : Nat)
    (name : List Nat) :
    c ≤ (strcmp_cursor buf c name).2 ∧
    byteAt buf (strcmp_cursor buf c name).2 = 0 ∧
    (∀ j, c ≤ j → j < (strcmp_cursor buf c name).2 → byteAt buf j ≠ 0) :=
  ⟨strcmp_cursor_ge buf c name, strcmp_cursor_nul buf c name,
    strcmp_cursor_min buf c name⟩

/-- Witness for C8: on buffer `[1, f, o, o, 0, 9]` with a mismatching query
the cursor still lands on the NUL at offset 4. -/
theorem strcmp_cursor_stops_at_terminating_nul_witness :
    (strcmp_cursor [1, 102, 111, 111, 0, 9] 1 [120]).2 = 4 ∧
    byteAt [1, 102, 111, 111, 0, 9]
      ((strcmp_cursor [1, 102, 111, 111, 0, 9] 1 [120]).2) = 0 := by
  constructor
  · rw [← strcmpCursorGo_eq 7 [1, 102, 111, 111, 0, 9] 1 [120] (by simp)]
    decide
  · exact (strcmp_cursor_stops_at_terminating_nul [1, 102, 111, 111, 0, 9] 1 [120]).2.1

/-- C9: immediately after `TVMMutableFuncRegistry_Create` on a buffer of at
least 2 bytes the registry is empty: the count byte is 0, every lookup
returns not_found, `GetByIndex 0` is out_of_range, and `max_functions`
equals the buffer size divided by `11 + sizeof(void*)`. -/
theorem create_yields_empty_registry (buffer : List Nat)
    (hB : 2 ≤ buffer.length) :
    byteAt (TVMMutableFuncRegistry_Create buffer).registry.buffer 0 = 0 ∧
    (∀ q : List Nat,
      TVMFuncRegistry_Lookup (TVMMutableFuncRegistry_Create buffer).registry q = none) ∧
    TVMFuncRegistry_GetByIndex (TVMMutableFuncRegistry_Create buffer).registry 0 = none ∧
    (TVMMutableFuncRegistry_Create buffer).max_functions =
      buffer.length / (11 + ptrSize) := by
  have hb0 : byteAt ((buffer.set 0 0).set 1 0) 0 = 0 := by
    rw [byteAt_set_ne _ _ _ _ (by omega)]
    exact byteAt_set_self _ _ _ (by omega)
  have hb1 : byteAt ((buffer.set 0 0).set 1 0) 1 = 0 := by
    refine byteAt_set_self _ _ _ ?_
    simp only [List.length_set]
    omega
  refine ⟨hb0, ?_, ?_, ?_⟩
  · intro q
    simp only [TVMFuncRegistry_Lookup, TVMMutableFuncRegistry_Create]
    rw [scanNames, dif_neg (by simp [hb1])]
  · simp only [TVMFuncRegistry_GetByIndex, TVMMutableFuncRegistry_Create]
    rw [hb0]
    simp
  · simp only [TVMMutableFuncRegistry_Create]

/-- Witness for C9 on a 19-byte buffer. -/
theorem create_yields_empty_registry_witness :
    TVMFuncRegistry_GetByIndex
      (TVMMutableFuncRegistry_Create (List.replicate 19 0)).registry 0 = none ∧
    (TVMMutableFuncRegistry_Create (List.replicate 19 0)).max_functions =
      (List.replicate 19 0).length / (11 + ptrSize) :=
  ⟨(create_yields_empty_registry (List.replicate 19 0) (by simp)).2.2.1,
    (create_yields_empty_registry (List.replicate 19 0) (by simp)).2.2.2⟩

/-- C10: the `Session` constructor accepts a null (`none`) receive buffer
and then stores `none`; when the buffer is non-null the constructor clears
it (both cursors 0, data untouched); the initial state is always `kReset`
with `session_id` 0 and no complete message buffered. -/
theorem session_constructor_initial_state (n : Nat) (rb : Option BufferModel) :
    (Session_construct n rb).state = SessionState.kReset ∧
    (Session_construct n rb).session_id = 0 ∧
    (Session_construct n rb).receive_buffer_has_complete_message = false ∧
    (Session_construct n none).receive_buffer = none ∧
    (∀ b : BufferModel,
      (Session_construct n (some b)).receive_buffer = some ⟨b.data, 0, 0⟩) ∧
    (Session_construct n rb).nonce = n :=
  ⟨rfl, rfl, rfl, rfl, fun _ => rfl, rfl⟩

/-- Witness for C10 with a dirty concrete buffer and with a null buffer. -/
theorem session_constructor_initial_state_witness :
    (Session_construct 7 (some ⟨[5, 6], 1, 2⟩)).receive_buffer = some ⟨[5, 6], 0, 0⟩ ∧
    (Session_construct 7 none).state = SessionState.kReset :=
  ⟨(session_constructor_initial_state 7 (some ⟨[5, 6], 1, 2⟩)).2.2.2.2.1 ⟨[5, 6], 1, 2⟩,
    (session_constructor_initial_state 7 none).1⟩

/-- Bytes of the C string "foo". -/
def fooName : List Nat := [102, 111, 111]

/-- Bytes of the C string "food". -/
def foodName : List Nat := [102, 111, 111, 100]

/-- C1: the claim is falsified by the code.  With only "foo" stored (via
`Create` on 38 bytes and one successful `Set`), `Lookup("food")` returns
index 0 with status 0 although `"foo" ≠ "food"`: the `strcmp_cursor` loop
breaks only when the query is exhausted and overwrites `return_value` every
iteration, so when the stored name ends first the last (equal) comparison
stands and a stored name that is a strict prefix of the query is reported
equal - contradicting the function's own doc comment ("0 if the string
pointed to by cursor == name; non-zero otherwise"). -/
theorem lookup_matches_when_stored_name_ends_first :
    (TVMMutableFuncRegistry_Set
        (TVMMutableFuncRegistry_Create (List.replicate 38 0)) fooName 7 0).map
      (fun r => TVMFuncRegistry_Lookup r.registry foodName) = some (some 0) ∧
    fooName ≠ foodName := by
  constructor
  · rw [set_eq_impl]
    simp only [lookup_eq_impl]
    decide
  · decide

/-- C2: the claim is falsified by the code.  On a 19-byte buffer `Create`
gives `max_functions = 1` and places `funcs` at offset 11.  Registering a
10-byte name passes the capacity check (`reg_name_ptr + name_len > funcs`
compares `1 + 10 > 11`, false, because the check ignores the name's NUL and
the new end-of-names marker), so `strcpy` writes the terminating NUL at
offset 11 and the marker at offset 12 - both inside the funcs region
[11, 19) - and the subsequent `funcs[0]` store (pointer 0x0101010101010101)
overwrites them.  Post-state evidence: `Set` reported success, the count
byte is 1 and `GetByIndex 0` returns the pointer, yet `Lookup` of the very
name just registered returns not_found because its NUL terminator was
destroyed by the overlapping pointer store. -/
theorem set_overlap_corrupts_names_region :
    (TVMMutableFuncRegistry_Set
        (TVMMutableFuncRegistry_Create (List.replicate 19 0))
        (List.replicate 10 97) 72340172838076673 0).map
      (fun r => (byteAt r.registry.buffer 0,
        TVMFuncRegistry_Lookup r.registry (List.replicate 10 97),
        TVMFuncRegistry_GetByIndex r.registry 0)) =
      some (1, none, some 72340172838076673) := by
  rw [set_eq_impl]
  simp only [lookup_eq_impl]
  decide

/-- C7: `SendMessage` of Normal traffic fails (error status, nothing
framed) while the session is not established; StartSession and Log messages
may be sent in any state; once both sides are established, a Normal
`SendMessage` produces a frame that the receiving framer reassembles into
exactly the sent header-plus-body payload, with a valid CRC, and the
receiving session's message-received callback observes exactly the bytes
sent. -/
theorem session_send_requires_establishment :
    (∀ (s : SessionModel) (data : List Nat),
      Session_IsEstablished s = false →
      Session_SendMessage s MessageType.kNormalTraffic data = none) ∧
    (∀ (s : SessionModel) (data : List Nat) (mt : MessageType),
      mt = MessageType.kStartSessionMessage ∨ mt = MessageType.kLogMessage →
      Session_SendMessage s mt data =
        some (frameWrite (encodeSessionHeader ⟨s.session_id, mt⟩ ++ data))) ∧
    (∀ (sender receiver : SessionModel) (data : List Nat),
      Session_IsEstablished sender = true →
      Session_IsEstablished receiver = true →
      Session_SendMessage sender MessageType.kNormalTraffic data =
        some (frameWrite
          (encodeSessionHeader ⟨sender.session_id, MessageType.kNormalTraffic⟩ ++ data)) ∧
      framerRxFeed framerRxInit
          (frameWrite
            (encodeSessionHeader ⟨sender.session_id, MessageType.kNormalTraffic⟩ ++ data)) =
        (framerRxInit,
          [(encodeSessionHeader ⟨sender.session_id, MessageType.kNormalTraffic⟩ ++ data,
            true)]) ∧
      Session_onPacketCallback receiver
          (encodeSessionHeader ⟨sender.session_id, MessageType.kNormalTraffic⟩ ++ data)
          true =
        some (MessageType.kNormalTraffic, data)) := by
  refine ⟨?_, ?_, ?_⟩
  · intro s data hest
    unfold Session_SendMessage
    rw [if_pos ⟨rfl, hest⟩]
  · intro s data mt hmt
    unfold Session_SendMessage
    rw [if_neg]
    rcases hmt with rfl | rfl <;> simp
  · intro sender receiver data hs hr
    refine ⟨?_, framer_roundtrip _, ?_⟩
    · unfold Session_SendMessage
      rw [if_neg (by simp [hs])]
    · unfold Session_onPacketCallback
      rw [if_neg (by simp)]
      have hlen : (encodeSessionHeader
          ⟨sender.session_id, MessageType.kNormalTraffic⟩ ++ data).length =
          3 + data.length := by
        simp [encodeSessionHeader]
        omega
      rw [if_neg (by rw [hlen]; omega)]
      have hb2 : byteAt (encodeSessionHeader
          ⟨sender.session_id, MessageType.kNormalTraffic⟩ ++ data) 2 = 16 := rfl
      rw [hb2]
      simp [decodeMessageType, hr, encodeSessionHeader]

/-- A concrete established session used as both peers in the C7 witness. -/
def sessionEstDemo : SessionModel :=
  ⟨1, SessionState.kSessionEstablished, 258, none, false⟩

/-- A concrete not-yet-established session used in the C7 witness. -/
def sessionResetDemo : SessionModel := ⟨1, SessionState.kReset, 0, none, false⟩

/-- Witness for C7: the reset session cannot send Normal traffic, and the
established peer's callback observes exactly the sent bytes (including
reserved byte values 0xFF and 0xFE, which are escaped on the wire). -/
theorem session_send_requires_establishment_witness :
    Session_SendMessage sessionResetDemo MessageType.kNormalTraffic [5] = none ∧
    Session_onPacketCallback sessionEstDemo
      (encodeSessionHeader ⟨sessionEstDemo.session_id, MessageType.kNormalTraffic⟩ ++
        [255, 254, 65]) true =
      some (MessageType.kNormalTraffic, [255, 254, 65]) :=
  ⟨session_send_requires_establishment.1 sessionResetDemo [5] (by decide),
    (session_send_requires_establishment.2.2 sessionEstDemo sessionEstDemo
      [255, 254, 65] (by decide) (by decide)).2.2⟩

/-- The names blob without its end-of-names marker. -/
def namesFlat : List (List Nat) → List Nat
  | [] => []
  | s :: ns => s ++ 0 :: namesFlat ns

theorem encodeNames_eq_flat (ns : List (List Nat)) :
    encodeNames ns = namesFlat ns ++ [0] := by
  induction ns with
  | nil => rfl
  | cons s ns ih => simp [encodeNames, namesFlat, ih]

theorem namesFlat_length (ns : List (List Nat)) :
    (namesFlat ns).length = namesSize ns := by
  induction ns with
  | nil => rfl
  | cons s ns ih => simp [namesFlat, namesSize, ih]; omega

theorem encodeNames_snoc (ns : List (List Nat)) (q : List Nat) :
    encodeNames (ns ++ [q]) = namesFlat ns ++ (q ++ [0] ++ [0]) := by
  induction ns with
  | nil => simp [encodeNames, namesFlat]
  | cons s ns ih => simp [encodeNames, namesFlat, ih]

theorem getByIndex_none_iff (reg : TVMFuncRegistry) (j : Nat) :
    TVMFuncRegistry_GetByIndex reg j = none ↔ byteAt reg.buffer 0 ≤ j := by
  unfold TVMFuncRegistry_GetByIndex
  by_cases h : byteAt reg.buffer 0 ≤ j
  · simp [h]
  · simp [h]

theorem getD_mem_of_lt (l : List (List Nat)) (j : Nat) (h : j < l.length) :
    l.getD j [] ∈ l := by
  induction l generalizing j with
  | nil => simp at h
  | cons s ls ih =>
    cases j with
    | zero => simp
    | succ j' =>
      simp only [List.getD_cons_succ]
      exact List.mem_cons_of_mem s (ih j' (by simpa using Nat.lt_of_succ_lt_succ h))

/-- A well-formed mutable registry holding the names `ns`: the buffer is the
count byte (equal to the number of names), the packed names blob with its
end-of-names marker, then arbitrary bytes `rest`; the marker lies strictly
below `funcs`; the funcs region fits inside the buffer; the count fits its
capacity and its byte. -/
def WfRegistry (reg : TVMMutableFuncRegistry) (ns : List (List Nat))
    (rest : List Nat) : Prop :=
  reg.registry.buffer = ns.length :: encodeNames ns ++ rest ∧
  (∀ s ∈ ns, validName s) ∧
  (encodeNames ns).length + 1 ≤ reg.registry.funcsOff ∧
  reg.registry.funcsOff + ptrSize * reg.max_functions ≤ reg.registry.buffer.length ∧
  ns.length ≤ reg.max_functions ∧
  ns.length < 255

theorem scanNames_wf (reg : TVMMutableFuncRegistry) (ns : List (List Nat))
    (rest : List Nat) (q : List Nat)
    (hbuf : reg.registry.buffer = ns.length :: encodeNames ns ++ rest)
    (hvn : ∀ s ∈ ns, validName s) (hq : validCStr q) :
    scanNames reg.registry.buffer q 1 0 = scanModel ns q 1 0 :=
  scanNames_spec ns q [ns.length] rest reg.registry.buffer 1 0
    (by rw [hbuf]; rfl) rfl hvn hq

/-- C3: for every well-formed registry and name stored in it at index `i`
(its scan index: no earlier stored name is reported equal by the
implemented comparison - automatic for every registry built through
`Create`/`Set`, since an earlier match would have made the later insertion
of that name fail or overwrite in place): `Set` with `override = 0` returns
the -1 collision error and, returning before any write, changes nothing;
`Set` with `override = 1` succeeds and writes exactly the `ptrSize` bytes
of `funcs[i]` - the count byte at offset 0, all stored name bytes and every
other byte of the buffer are unchanged - and `funcs[i]` reads back as the
new pointer. -/
theorem set_override_replaces_pointer_in_place
    (reg : TVMMutableFuncRegistry) (ns : List (List Nat)) (rest : List Nat)
    (q : List Nat) (i : Nat) (f : Nat)
    (hwf : WfRegistry reg ns rest)
    (hq : validName q)
    (hi : i < ns.length)
    (hqi : ns.getD i [] = q)
    (hfirst : ∀ j, j < i → ¬ bugMatch (ns.getD j []) q)
    (hf : f < 256 ^ ptrSize) :
    TVMMutableFuncRegistry_Set reg q f 0 = none ∧
    TVMMutableFuncRegistry_Set reg q f 1 =
      some ⟨⟨writeBytesLE reg.registry.buffer
          (reg.registry.funcsOff + ptrSize * i) ptrSize f,
        reg.registry.funcsOff⟩, reg.max_functions⟩ ∧
    (∀ r', TVMMutableFuncRegistry_Set reg q f 1 = some r' →
      byteAt r'.registry.buffer 0 = byteAt reg.registry.buffer 0 ∧
      (∀ k, k < reg.registry.funcsOff + ptrSize * i →
        byteAt r'.registry.buffer k = byteAt reg.registry.buffer k) ∧
      (∀ k, reg.registry.funcsOff + ptrSize * i + ptrSize ≤ k →
        byteAt r'.registry.buffer k = byteAt reg.registry.buffer k) ∧
      readBytesLE r'.registry.buffer
        (reg.registry.funcsOff + ptrSize * i) ptrSize = f) := by
  obtain ⟨hbuf, hvn, hmark, hcap, hle, h255⟩ := hwf
  have hps : ptrSize = 8 := rfl
  have hscan : scanNames reg.registry.buffer q 1 0 = ScanResult.found i := by
    rw [scanNames_wf reg ns rest q hbuf hvn hq.2]
    have := scanModel_found ns q i 1 0 hi (by rw [hqi]; exact bugMatch_self q hq.1)
      hfirst
    simpa using this
  have hset1 : TVMMutableFuncRegistry_Set reg q f 1 =
      some ⟨⟨writeBytesLE reg.registry.buffer
          (reg.registry.funcsOff + ptrSize * i) ptrSize f,
        reg.registry.funcsOff⟩, reg.max_functions⟩ := by
    unfold TVMMutableFuncRegistry_Set
    rw [hscan]
    dsimp only
    rw [if_neg (by decide)]
  refine ⟨?_, hset1, ?_⟩
  · unfold TVMMutableFuncRegistry_Set
    rw [hscan]
    dsimp only
    rw [if_pos rfl]
  · intro r' hr'
    rw [hset1] at hr'
    have hr'' := Option.some_injective _ hr'
    subst hr''
    have hoffpos : 0 < reg.registry.funcsOff + ptrSize * i := by
      have h1 : 1 ≤ (encodeNames ns).length := by
        rw [encodeNames_length]
        omega
      omega
    have hinbounds : reg.registry.funcsOff + ptrSize * i + ptrSize ≤
        reg.registry.buffer.length := by
      have : ptrSize * i + ptrSize = ptrSize * (i + 1) := by ring
      have hii : ptrSize * (i + 1) ≤ ptrSize * reg.max_functions :=
        Nat.mul_le_mul_left _ (by omega)
      omega
    refine ⟨?_, ?_, ?_, ?_⟩
    · exact byteAt_writeBytesLE_lt _ _ _ _ _ hoffpos
    · intro k hk
      exact byteAt_writeBytesLE_lt _ _ _ _ _ hk
    · intro k hk
      exact byteAt_writeBytesLE_ge _ _ _ _ _ hk
    · exact readBytesLE_writeBytesLE _ _ _ _ hf hinbounds

/-- A concrete well-formed registry holding only "foo" (count 1, names blob
`foo\0\0`, funcs region at offset 22 of a 38-byte buffer, capacity 2). -/
def regFooDemo : TVMMutableFuncRegistry :=
  ⟨⟨1 :: encodeNames [fooName] ++ List.replicate 32 0, 22⟩, 2⟩

/-- Witness for C3 on `regFooDemo`: overriding "foo" with override=0 fails,
with override=1 rewrites exactly funcs[0]. -/
theorem set_override_replaces_pointer_in_place_witness :
    TVMMutableFuncRegistry_Set regFooDemo fooName 5 0 = none ∧
    TVMMutableFuncRegistry_Set regFooDemo fooName 5 1 =
      some ⟨⟨writeBytesLE regFooDemo.registry.buffer
          (regFooDemo.registry.funcsOff + ptrSize * 0) ptrSize 5,
        regFooDemo.registry.funcsOff⟩, regFooDemo.max_functions⟩ :=
  ⟨(set_override_replaces_pointer_in_place regFooDemo [fooName]
      (List.replicate 32 0) fooName 0 5
      ⟨rfl, by decide, by decide, by decide, by decide, by decide⟩
      (by decide) (by decide) (by decide)
      (fun j hj => absurd hj (Nat.not_lt_zero j)) (by decide)).1,
    (set_override_replaces_pointer_in_place regFooDemo [fooName]
      (List.replicate 32 0) fooName 0 5
      ⟨rfl, by decide, by decide, by decide, by decide, by decide⟩
      (by decide) (by decide) (by decide)
      (fun j hj => absurd hj (Nat.not_lt_zero j)) (by decide)).2.1⟩

/-- C4: on a well-formed registry with free capacity (the gap holds the new
name, its NUL and the new end-of-names marker, and a pointer slot is free)
and a fresh name (no stored name is reported equal by the implemented
comparison - with exact comparison this is exactly "not already registered",
and it is what makes the `Set` call succeed, as the claim presupposes),
`Set(name, f1)` succeeds, `Lookup(name)` then returns index `ns.length`
(the new entry), `GetByIndex` at that index yields `f1`, and `GetByIndex j`
fails with out_of_range exactly when `j` is at least the function count
stored at `names[0]`. -/
theorem set_fresh_name_roundtrip
    (reg : TVMMutableFuncRegistry) (ns : List (List Nat)) (rest : List Nat)
    (q : List Nat) (f1 : Nat)
    (hwf : WfRegistry reg ns rest)
    (hq : validName q)
    (hfresh : ∀ s ∈ ns, ¬ bugMatch s q)
    (hgap : (encodeNames ns).length + q.length + 2 ≤ reg.registry.funcsOff)
    (hn : ns.length < reg.max_functions)
    (hf1 : f1 < 256 ^ ptrSize) :
    ∃ r', TVMMutableFuncRegistry_Set reg q f1 0 = some r' ∧
      TVMFuncRegistry_Lookup r'.registry q = some ns.length ∧
      TVMFuncRegistry_GetByIndex r'.registry ns.length = some f1 ∧
      (∀ j, TVMFuncRegistry_GetByIndex r'.registry j = none ↔
        byteAt r'.registry.buffer 0 ≤ j) := by
  obtain ⟨hbuf, hvn, hmark, hcap, hle, h255⟩ := hwf
  have hps : ptrSize = 8 := rfl
  have hEnc : (encodeNames ns).length = namesSize ns + 1 := encodeNames_length ns
  have hLbuf : reg.registry.buffer.length =
      1 + (encodeNames ns).length + rest.length := by
    rw [hbuf]
    simp only [List.length_cons, List.length_append]
    omega
  rw [hps] at hcap
  -- the scan falls through at the marker with idx = ns.length
  have hscan : scanNames reg.registry.buffer q 1 0 =
      ScanResult.notFound (1 + namesSize ns) ns.length := by
    rw [scanNames_wf reg ns rest q hbuf hvn hq.2]
    simpa using scanModel_notFound ns q hfresh 1 0
  have hguard : ¬(ns.length > reg.max_functions ∨
      (1 + namesSize ns) + q.length > reg.registry.funcsOff) := by
    push_neg
    exact ⟨by omega, by omega⟩
  -- decomposition for the strcpy
  have hflat : reg.registry.buffer =
      (ns.length :: namesFlat ns) ++ (0 :: rest) := by
    rw [hbuf, encodeNames_eq_flat]
    simp
  have hpre1len : (ns.length :: namesFlat ns).length = 1 + namesSize ns := by
    simp [namesFlat_length]
    omega
  have he1 : writeName reg.registry.buffer (1 + namesSize ns) q =
      (ns.length :: namesFlat ns) ++ q ++ 0 :: rest.drop q.length := by
    have := writeName_spec q (ns.length :: namesFlat ns) (0 :: rest)
      reg.registry.buffer (1 + namesSize ns) hflat hpre1len.symm
      (by simp; omega)
    simpa using this
  -- the byte after the new NUL exists
  have hdroplen : (rest.drop q.length).length = rest.length - q.length := by
    simp
  have hdropne : rest.drop q.length ≠ [] := by
    intro hnil
    rw [hnil] at hdroplen
    simp at hdroplen
    omega
  obtain ⟨z, junk3, hz⟩ := List.exists_cons_of_ne_nil hdropne
  -- the end-of-names marker write
  have he2 : ((ns.length :: namesFlat ns) ++ q ++ 0 :: rest.drop q.length).set
      (1 + namesSize ns + q.length + 1) 0 =
      ns.length :: encodeNames (ns ++ [q]) ++ junk3 := by
    rw [hz]
    have hre : (ns.length :: namesFlat ns) ++ q ++ 0 :: z :: junk3 =
        ((ns.length :: namesFlat ns) ++ q ++ [0]) ++ z :: junk3 := by
      simp
    have hrelen : ((ns.length :: namesFlat ns) ++ q ++ [0]).length =
        1 + namesSize ns + q.length + 1 := by
      simp [namesFlat_length]
      omega
    rw [hre, List.set_append_right _ _ (by omega)]
    rw [hrelen]
    simp [encodeNames_snoc]
  -- the funcs[idx] write stays above the new names blob
  have hpre3len : (ns.length :: encodeNames (ns ++ [q])).length =
      namesSize ns + q.length + 3 := by
    simp [encodeNames_snoc, namesFlat_length]
    omega
  have hoffge : (ns.length :: encodeNames (ns ++ [q])).length ≤
      reg.registry.funcsOff + ptrSize * ns.length := by
    rw [hpre3len, hps]
    omega
  have he3 : writeBytesLE (ns.length :: encodeNames (ns ++ [q]) ++ junk3)
      (reg.registry.funcsOff + ptrSize * ns.length) ptrSize f1 =
      ns.length :: encodeNames (ns ++ [q]) ++
        writeBytesLE junk3
          (reg.registry.funcsOff + ptrSize * ns.length -
            (namesSize ns + q.length + 3)) ptrSize f1 := by
    have hsh : ns.length :: encodeNames (ns ++ [q]) ++ junk3 =
        (ns.length :: encodeNames (ns ++ [q])) ++ junk3 := by
      simp
    rw [hsh, writeBytesLE_append ptrSize _ _ _ _ hoffge, hpre3len]
  have hcount : (byteAt (ns.length :: encodeNames (ns ++ [q]) ++
      writeBytesLE junk3
        (reg.registry.funcsOff + ptrSize * ns.length -
          (namesSize ns + q.length + 3)) ptrSize f1) 0 + 1) % 256 =
      ns.length + 1 := by
    have : byteAt (ns.length :: encodeNames (ns ++ [q]) ++
        writeBytesLE junk3
          (reg.registry.funcsOff + ptrSize * ns.length -
            (namesSize ns + q.length + 3)) ptrSize f1) 0 = ns.length := rfl
    rw [this]
    exact Nat.mod_eq_of_lt (by omega)
  -- the computed post-state
  have hset : TVMMutableFuncRegistry_Set reg q f1 0 =
      some ⟨⟨(ns.length + 1) :: encodeNames (ns ++ [q]) ++
          writeBytesLE junk3
            (reg.registry.funcsOff + ptrSize * ns.length -
              (namesSize ns + q.length + 3)) ptrSize f1,
        reg.registry.funcsOff⟩, reg.max_functions⟩ := by
    unfold TVMMutableFuncRegistry_Set
    rw [hscan]
    dsimp only
    rw [if_neg hguard, he1, he2, he3, hcount]
    rfl
  refine ⟨_, hset, ?_, ?_, ?_⟩
  · -- Lookup finds the new entry
    unfold TVMFuncRegistry_Lookup
    dsimp only
    have hvn' : ∀ s ∈ ns ++ [q], validName s := by
      intro s hs
      rcases List.mem_append.mp hs with h | h
      · exact hvn s h
      · simp at h
        subst h
        exact hq
    rw [scanNames_spec (ns ++ [q]) q [ns.length + 1]
      (writeBytesLE junk3
        (reg.registry.funcsOff + ptrSize * ns.length -
          (namesSize ns + q.length + 3)) ptrSize f1) _ 1 0 (by simp) rfl hvn' hq.2]
    have hmatch' : bugMatch ((ns ++ [q]).getD ns.length []) q := by
      rw [List.getD_append_right ns [q] [] ns.length (Nat.le_refl _)]
      simp
      exact bugMatch_self q hq.1
    have hbefore' : ∀ j, j < ns.length → ¬ bugMatch ((ns ++ [q]).getD j []) q := by
      intro j hj
      rw [List.getD_append ns [q] [] j hj]
      exact hfresh (ns.getD j []) (getD_mem_of_lt ns j hj)
    rw [scanModel_found (ns ++ [q]) q ns.length 1 0 (by simp) hmatch' hbefore']
    simp
  · -- GetByIndex at the new index returns f1
    unfold TVMFuncRegistry_GetByIndex
    dsimp only
    have hb0 : byteAt ((ns.length + 1) :: encodeNames (ns ++ [q]) ++
        writeBytesLE junk3
          (reg.registry.funcsOff + ptrSize * ns.length -
            (namesSize ns + q.length + 3)) ptrSize f1) 0 = ns.length + 1 := rfl
    rw [hb0, if_neg (show ¬(ns.length + 1 ≤ ns.length) by omega)]
    have hjunk3len : junk3.length = rest.length - q.length - 1 := by
      have := congrArg List.length hz
      rw [hdroplen] at this
      simp at this
      omega
    set W := writeBytesLE junk3
      (reg.registry.funcsOff + ptrSize * ns.length -
        (namesSize ns + q.length + 3)) ptrSize f1 with hW
    have hsplit : reg.registry.funcsOff + ptrSize * ns.length =
        ((ns.length + 1) :: encodeNames (ns ++ [q])).length +
          (reg.registry.funcsOff + ptrSize * ns.length -
            (namesSize ns + q.length + 3)) := by
      have h3 : ((ns.length + 1) :: encodeNames (ns ++ [q])).length =
          namesSize ns + q.length + 3 := by
        simp [encodeNames_snoc, namesFlat_length]
        omega
      rw [h3, hps]
      omega
    refine congrArg some ?_
    have hshape2 : (ns.length + 1) :: encodeNames (ns ++ [q]) ++ W =
        ((ns.length + 1) :: encodeNames (ns ++ [q])) ++ W := rfl
    rw [hshape2, hsplit, readBytesLE_append_right, hW]
    refine readBytesLE_writeBytesLE ptrSize junk3 _ f1 hf1 ?_
    rw [hps]
    omega
  · -- out_of_range exactly at and beyond the stored count
    intro j
    exact getByIndex_none_iff _ j

/-- Witness for C4: on a freshly created 38-byte registry, registering
"foo" with pointer 9 makes it found at index 0 with pointer 9. -/
theorem set_fresh_name_roundtrip_witness :
    ∃ r', TVMMutableFuncRegistry_Set
        (TVMMutableFuncRegistry_Create (List.replicate 38 0)) fooName 9 0 =
        some r' ∧
      TVMFuncRegistry_Lookup r'.registry fooName = some 0 ∧
      TVMFuncRegistry_GetByIndex r'.registry 0 = some 9 ∧
      (∀ j, TVMFuncRegistry_GetByIndex r'.registry j = none ↔
        byteAt r'.registry.buffer 0 ≤ j) :=
  set_fresh_name_roundtrip (TVMMutableFuncRegistry_Create (List.replicate 38 0))
    [] (List.replicate 36 0) fooName 9
    ⟨by decide, by decide, by decide, by decide, by decide, by decide⟩
    (by decide) (by decide) (by decide) (by decide) (by decide)
